import Mathlib

/-!
Verification development for the reactivity core
(packages/reactivity: baseHandlers.ts, effect.ts, reactive.ts).

The TypeScript sources are shallowly embedded: proxies, refs and plain
objects become an inductive value type `JVal`; the mutable heap of object
fields, array lengths and ref cells becomes an explicit `Heap` record;
trap handlers become pure functions returning the updated heap together
with the list of trigger events they would fire; the dep bit-marker
machinery of `effect.ts` becomes explicit state passing over a store of
dep records.  JS bitfields are `Nat` with `|||` / `&&&` on powers of two.
-/

namespace VueReactivity

/-- Property keys as used by the reactivity engine: the synthetic array key
length, integer index keys (isIntegerKey), ordinary string keys (by
convention `named s` is used only for non-integer, non-length strings),
and the two iteration sentinels ITERATE_KEY and MAP_KEY_ITERATE_KEY
(symbols in the source). -/
inductive RKey where
  | length
  | idx (n : Nat)
  | named (s : String)
  | iterate
  | mapKeyIterate
deriving DecidableEq, Repr

/-- Wrap modes of the four proxy factories of reactive.ts. -/
inductive Mode where
  | reactive
  | shallowReactive
  | readonly
  | shallowReadonly
deriving DecidableEq, Repr

/-- Runtime values: undefined, primitives (with NaN kept separate so that
identity comparison can be NaN-aware like Object.is), plain objects and
arrays and ref cells identified by heap ids, objects whose target type is
INVALID (frozen / markRaw-skipped / unsupported class), and proxies
produced by createReactiveObject (the wrap mode plus the wrapped target). -/
inductive JVal where
  | undefined
  | prim (n : Int)
  | nan
  | obj (id : Nat)
  | arr (id : Nat)
  | refv (id : Nat)
  | invalidObj (id : Nat)
  | proxy (m : Mode) (target : JVal)
deriving DecidableEq, Repr

namespace JVal

/-- Models isObject from @vue/shared: value is object-like. -/
def isObjectVal : JVal → Bool
  | .obj _ => true
  | .arr _ => true
  | .refv _ => true
  | .invalidObj _ => true
  | .proxy _ _ => true
  | _ => false

/-- Reading the IS_READONLY marker: the readonly getters answer true, all
other values (including non-proxies) answer falsy. Models isReadonly of
reactive.ts. -/
def isReadonlyVal : JVal → Bool
  | .proxy .readonly _ => true
  | .proxy .shallowReadonly _ => true
  | _ => false

/-- Reading the IS_REACTIVE marker: a proxy answers the negation of its
handler's isReadonly flag; other values answer falsy. -/
def isReactiveFlag : JVal → Bool
  | .proxy .reactive _ => true
  | .proxy .shallowReactive _ => true
  | _ => false

/-- Reading the RAW marker on a canonical proxy returns its target;
non-proxies have no RAW property. -/
def rawOf : JVal → Option JVal
  | .proxy _ t => some t
  | _ => none

/-- Models isRef of ref.ts: the value is a ref cell. -/
def isRefVal : JVal → Bool
  | .refv _ => true
  | _ => false

/-- Models Array.isArray on a raw (non-proxy) target. -/
def isArrayVal : JVal → Bool
  | .arr _ => true
  | _ => false

/-- Value is a proxy wrapper. -/
def isProxyVal : JVal → Bool
  | .proxy _ _ => true
  | _ => false

end JVal

/-- Models toRaw of reactive.ts: follow the RAW marker until a value with
no RAW property remains, unwrapping arbitrarily many proxy layers. -/
def toRaw : JVal → JVal
  | .proxy _ t => toRaw t
  | v => v

/-- Models isIntegerKey of @vue/shared. -/
def isIntegerKey : RKey → Bool
  | .idx _ => true
  | _ => false

/-- Models hasChanged of @vue/shared, i.e. the negation of Object.is.
Structural equality on JVal makes two NaNs equal, exactly as Object.is
does, so the comparison is NaN-aware. -/
def hasChanged (value oldValue : JVal) : Bool :=
  value ≠ oldValue

/-- Trigger operation types of operations.ts. -/
inductive TrigOp where
  | set
  | add
  | del
  | clear
deriving DecidableEq, Repr

/-- Observable events emitted by the trap models: a trigger on an object
location, or the firing of a ref cell's own dep (the write path of a ref's
value setter). -/
inductive TrigEvent where
  | objTrig (targetId : Nat) (op : TrigOp) (key : RKey)
  | refTrig (refId : Nat)
deriving DecidableEq, Repr

/-- Mutable heap backing the embedding: own properties of plain objects
and arrays, the length slot of arrays, and the value slot of ref cells. -/
structure Heap where
  fields : Nat → RKey → Option JVal
  arrLen : Nat → Nat
  refVal : Nat → JVal

/-- Heap id of a raw object or array target. -/
def targetId : JVal → Nat
  | .obj i => i
  | .arr i => i
  | .refv i => i
  | .invalidObj i => i
  | _ => 0

/-- Models the plain property read target[key] on a raw target (missing
properties read as undefined; the length slot of an array reads its
numeric length). -/
def readField (h : Heap) (target : JVal) (key : RKey) : JVal :=
  match target, key with
  | .arr i, .length => .prim (h.arrLen i)
  | .arr i, k => (h.fields i k).getD .undefined
  | .obj i, k => (h.fields i k).getD .undefined
  | _, _ => .undefined

/-- Models hasOwn(target, key) on a raw target. -/
def hasOwnField (h : Heap) (target : JVal) (key : RKey) : Bool :=
  match target, key with
  | .arr _, .length => true
  | .arr i, k => (h.fields i k).isSome
  | .obj i, k => (h.fields i k).isSome
  | _, _ => false

/-- Pointwise update of an object's field map. -/
def updField (h : Heap) (i : Nat) (key : RKey) (v : Option JVal) : Heap :=
  { h with fields := fun j k => if j = i ∧ k = key then v else h.fields j k }

/-- Models Reflect.set(target, key, value) on a raw target: store the own
property; writing an integer index at or past the end of an array grows
its length; writing a numeric value to the length slot of an array
truncates it, dropping the fields at removed indices. -/
def reflectSet (h : Heap) (target : JVal) (key : RKey) (value : JVal) : Heap :=
  match target, key, value with
  | .arr i, .length, .prim m =>
      let m' := m.toNat
      { h with
        arrLen := fun j => if j = i then m' else h.arrLen j,
        fields := fun j k =>
          if j = i then
            match k with
            | .idx n => if n < m' then h.fields j k else none
            | _ => h.fields j k
          else h.fields j k }
  | .arr i, .idx n, v =>
      let h' := updField h i (.idx n) (some v)
      { h' with arrLen := fun j => if j = i then max (h.arrLen i) (n + 1) else h.arrLen j }
  | .arr i, k, v => updField h i k (some v)
  | .obj i, k, v => updField h i k (some v)
  | _, _, _ => h

/-- Models the value setter of a ref cell (ref.ts is not part of the
sources; Modelled from the spec: section 4.7 of the design, writing value,
if changed by identity/NaN-aware comparison, calls trigger on the ref's
own dep; the deep-wrap of object values is left out as no claim depends
on it). -/
def refSetValue (h : Heap) (i : Nat) (v : JVal) : Heap × List TrigEvent :=
  if hasChanged v (h.refVal i) then
    ({ h with refVal := fun j => if j = i then v else h.refVal j }, [.refTrig i])
  else
    (h, [])

/-- Models the hadKey computation of the set trap (baseHandlers.ts): for
an array with an integer key the index must lie below the length,
otherwise the target must own the property. -/
def hadKeyOf (h : Heap) (target : JVal) (key : RKey) : Bool :=
  if target.isArrayVal ∧ isIntegerKey key then
    match target, key with
    | .arr i, .idx n => decide (n < h.arrLen i)
    | _, _ => false
  else hasOwnField h target key

/-- Second half of the setter produced by createSetter (baseHandlers.ts):
compute hadKey, perform the underlying write, and when the receiver is the
canonical proxy of the target, trigger ADD for a fresh key or SET when the
value changed under the NaN-aware comparison. The value and oldValue
arguments arrive already normalized (raw-unwrapped or not) exactly as the
source leaves them at this point. -/
def setterRest (h : Heap) (target : JVal) (key : RKey) (value oldValue receiver : JVal) :
    Bool × Heap × List TrigEvent :=
  let hadKey := hadKeyOf h target key
  let h' := reflectSet h target key value
  let evs :=
    if toRaw receiver = target then
      if ¬ hadKey then [.objTrig (targetId target) .add key]
      else if hasChanged value oldValue then [.objTrig (targetId target) .set key]
      else []
    else []
  (true, h', evs)

/-- Heap id of a ref cell value (used to address the ref whose value slot
a forwarded write lands in). -/
def refIdOf : JVal → Nat
  | .refv i => i
  | _ => 0

/-- Models the set trap produced by createSetter (baseHandlers.ts): read
the old value, in the deep mode with a non-readonly incoming value unwrap
both sides via toRaw and forward a write whose old value is a ref (and new
value is not, and the target is not an array) into the ref's own value
slot, returning true with no trigger on (target, key); otherwise fall
through to the underlying write with the appropriate trigger. -/
def createSetter (shallow : Bool) (h : Heap) (target : JVal) (key : RKey)
    (value receiver : JVal) : Bool × Heap × List TrigEvent :=
  let oldValue := readField h target key
  if ¬ shallow ∧ ¬ value.isReadonlyVal then
    let v := toRaw value
    let ov := toRaw oldValue
    if ¬ target.isArrayVal ∧ ov.isRefVal ∧ ¬ v.isRefVal then
      let r := refSetValue h (refIdOf ov) v
      (true, r.1, r.2)
    else
      setterRest h target key v ov receiver
  else
    setterRest h target key value oldValue receiver

/-- Models readonlyHandlers.set (baseHandlers.ts): warn in dev, perform no
write, fire no trigger, report success. -/
def readonlySet (h : Heap) (_target : JVal) (_key : RKey) (_value : JVal) :
    Bool × Heap × List TrigEvent :=
  (true, h, [])

/-- Models readonlyHandlers.deleteProperty (baseHandlers.ts): warn in dev,
perform no delete, fire no trigger, report success. -/
def readonlyDelete (h : Heap) (_target : JVal) (_key : RKey) :
    Bool × Heap × List TrigEvent :=
  (true, h, [])

/-! Proxy factory (reactive.ts). -/

/-- Target classification of getTargetType: INVALID objects are returned
bare, everything object-like of a supported class is observed. The raw
type of a proxy is the raw type of what it wraps (toRawType pierces the
proxy). Collections carry no distinct constructor in this embedding, so
COMMON stands for every valid class. -/
inductive TType where
  | invalid
  | common
deriving DecidableEq, Repr

/-- Models getTargetType of reactive.ts on the embedded values. -/
def getTargetType : JVal → TType
  | .invalidObj _ => .invalid
  | .obj _ => .common
  | .arr _ => .common
  | .refv _ => .common
  | .proxy _ t => getTargetType t
  | _ => .invalid

/-- State of the four identity maps of reactive.ts (target to stored
proxy, association lists keyed by JS identity). -/
structure FactoryState where
  reactiveMap : List (JVal × JVal)
  shallowReactiveMap : List (JVal × JVal)
  readonlyMap : List (JVal × JVal)
  shallowReadonlyMap : List (JVal × JVal)

/-- Identity map belonging to a wrap mode. -/
def mapFor : Mode → FactoryState → List (JVal × JVal)
  | .reactive, st => st.reactiveMap
  | .shallowReactive, st => st.shallowReactiveMap
  | .readonly, st => st.readonlyMap
  | .shallowReadonly, st => st.shallowReadonlyMap

/-- Replace the identity map belonging to a wrap mode. -/
def setMapFor : Mode → FactoryState → List (JVal × JVal) → FactoryState
  | .reactive, st, m => { st with reactiveMap := m }
  | .shallowReactive, st, m => { st with shallowReactiveMap := m }
  | .readonly, st, m => { st with readonlyMap := m }
  | .shallowReadonly, st, m => { st with shallowReadonlyMap := m }

/-- Whether a mode's handlers are the readonly ones. -/
def isModeReadonly : Mode → Bool
  | .readonly => true
  | .shallowReadonly => true
  | _ => false

/-- Lookup in an identity map. -/
def lookupAssoc (m : List (JVal × JVal)) (t : JVal) : Option JVal :=
  (m.find? (fun p => p.1 = t)).map (fun p => p.2)

/-- Models createReactiveObject of reactive.ts: return non-objects bare;
return an existing proxy unchanged unless a readonly view of a reactive
proxy is being requested; return the stored proxy when the mode's identity
map already has the target; return INVALID targets bare; otherwise create
a fresh proxy and record it in the mode's map. -/
def createReactiveObject (mo : Mode) (st : FactoryState) (target : JVal) :
    JVal × FactoryState :=
  if ¬ target.isObjectVal then (target, st)
  else if (target.rawOf).isSome ∧ ¬ (isModeReadonly mo ∧ target.isReactiveFlag) then
    (target, st)
  else
    match lookupAssoc (mapFor mo st) target with
    | some p => (p, st)
    | none =>
      if getTargetType target = .invalid then (target, st)
      else
        let p := JVal.proxy mo target
        (p, setMapFor mo st ((target, p) :: mapFor mo st))

/-- Models reactive of reactive.ts, including the pre-check that returns a
readonly proxy unchanged. -/
def reactiveF (st : FactoryState) (t : JVal) : JVal × FactoryState :=
  if t.isReadonlyVal then (t, st)
  else createReactiveObject .reactive st t

/-- Models shallowReactive of reactive.ts. -/
def shallowReactiveF (st : FactoryState) (t : JVal) : JVal × FactoryState :=
  createReactiveObject .shallowReactive st t

/-- Models readonly of reactive.ts. -/
def readonlyF (st : FactoryState) (t : JVal) : JVal × FactoryState :=
  createReactiveObject .readonly st t

/-- Models shallowReadonly of reactive.ts. -/
def shallowReadonlyF (st : FactoryState) (t : JVal) : JVal × FactoryState :=
  createReactiveObject .shallowReadonly st t

/-- Uniform dispatch of the four public constructors by wrap mode. -/
def wrapF : Mode → FactoryState → JVal → JVal × FactoryState
  | .reactive, st, t => reactiveF st t
  | .shallowReactive, st, t => shallowReactiveF st t
  | .readonly, st, t => readonlyF st t
  | .shallowReadonly, st, t => shallowReadonlyF st t

/-- Well-formedness of the factory state: every entry of a mode's identity
map stores the proxy of that mode over its key, which is what
createReactiveObject alone ever inserts. -/
def FactoryWF (st : FactoryState) : Prop :=
  ∀ mo t p, (t, p) ∈ mapFor mo st → p = JVal.proxy mo t

/-! Trigger dep collection (effect.ts, function trigger). -/

/-- Models the JS comparison key >= newValue inside the length branch of
trigger, where the map keys met there are the string length, integer-index
strings (coerced to their number) and other string keys (coerced to NaN,
so every comparison is false). Symbol keys, which would throw in JS, are
given no meaning here; the theorems about this branch assume the deps map
holds no iteration sentinels. -/
def keyGeLen : RKey → Nat → Bool
  | .idx n, len => len ≤ n
  | _, _ => false

/-- Models the dep-collection phase of trigger (effect.ts): given the deps
map of the target as an association list from key to dep handle, the
target kind, the operation type, the key and (for length writes) the new
length, return the dep handles that will be fed to triggerEffects, in
order. CLEAR takes every dep; a length write on an array takes the deps
whose key is length or an integer index at or beyond the new length;
otherwise the key's dep plus the iteration deps the switch adds per
operation type. -/
def trigger (depsMap : List (RKey × Nat)) (targetIsArray targetIsMap : Bool)
    (type : TrigOp) (key : Option RKey) (newLen : Nat) : List Nat :=
  if type = .clear then depsMap.map (fun p => p.2)
  else if key = some .length ∧ targetIsArray then
    (depsMap.filter (fun p => p.1 = .length ∨ keyGeLen p.1 newLen)).map (fun p => p.2)
  else
    let base :=
      match key with
      | some k => ((depsMap.find? (fun p => p.1 = k)).map (fun p => p.2)).toList
      | none => []
    let extra :=
      match type with
      | .add =>
          if ¬ targetIsArray then
            ((depsMap.find? (fun p => p.1 = .iterate)).map (fun p => p.2)).toList ++
            (if targetIsMap then
              ((depsMap.find? (fun p => p.1 = .mapKeyIterate)).map (fun p => p.2)).toList
            else [])
          else if (key.map isIntegerKey).getD false then
            ((depsMap.find? (fun p => p.1 = .length)).map (fun p => p.2)).toList
          else []
      | .del =>
          if ¬ targetIsArray then
            ((depsMap.find? (fun p => p.1 = .iterate)).map (fun p => p.2)).toList ++
            (if targetIsMap then
              ((depsMap.find? (fun p => p.1 = .mapKeyIterate)).map (fun p => p.2)).toList
            else [])
          else []
      | .set =>
          if targetIsMap then
            ((depsMap.find? (fun p => p.1 = .iterate)).map (fun p => p.2)).toList
          else []
      | .clear => []
    base ++ extra

/-! Effect invocation loop (effect.ts, function triggerEffects, together
with the re-entry guard at the top of ReactiveEffect.run). -/

/-- Per-effect data consulted by the trigger loop: whether the effect is
still active, its allowRecurse flag, whether it carries a scheduler, and
whether its invocation raises an exception. -/
structure EffInfo where
  active : Bool
  allowRecurse : Bool
  hasScheduler : Bool
  throws : Bool

/-- Filter applied by triggerEffects before invoking an effect: skip the
effect when it is the currently active effect, unless allowRecurse. -/
def passesFilter (effs : Nat → EffInfo) (activeEffect : Option Nat) (e : Nat) : Bool :=
  decide (some e ≠ activeEffect) || (effs e).allowRecurse

/-- Re-entry guard at the top of ReactiveEffect.run: an inactive effect
runs its fn untracked; an active effect runs its fn only when it is not
already on the effect stack. -/
def runExecutesFn (effs : Nat → EffInfo) (stack : List Nat) (e : Nat) : Bool :=
  !(effs e).active || decide (e ∉ stack)

/-- Outcome of one triggerEffects call: which effects were invoked
(scheduler or run), which effect fn bodies actually executed, and whether
the loop completed without an exception escaping. -/
structure TrigRunResult where
  invoked : List Nat
  fnRan : List Nat
  ok : Bool
deriving DecidableEq, Repr

/-- Models the loop of triggerEffects (effect.ts): walk the dep in order;
for each effect passing the activeEffect filter, call its scheduler when
present and its run otherwise (run executes the fn body only past the
stack guard); an exception raised by an invocation escapes the loop at
once, leaving the remaining effects of the batch uninvoked, because the
loop body has no isolation around the call. -/
def triggerEffects (effs : Nat → EffInfo) (activeEffect : Option Nat)
    (stack : List Nat) : List Nat → TrigRunResult
  | [] => ⟨[], [], true⟩
  | e :: rest =>
    if passesFilter effs activeEffect e then
      let fnRan := !(effs e).hasScheduler && runExecutesFn effs stack e
      if (effs e).throws && ((effs e).hasScheduler || runExecutesFn effs stack e) then
        ⟨[e], if fnRan then [e] else [], false⟩
      else
        let r := triggerEffects effs activeEffect stack rest
        ⟨e :: r.invoked, (if fnRan then [e] else []) ++ r.fnRan, r.ok⟩
    else triggerEffects effs activeEffect stack rest

/-! Dependency bookkeeping with bit markers (effect.ts together with the
dep record; dep.ts itself is not among the sources, so its few one-line
helpers are modelled from the spec, section 4.5). -/

/-- Location a dep belongs to: a (target, key) pair. -/
abbrev Loc := Nat × RKey

/-- Dep record: the set of subscribing effects (kept as a duplicate-free
list of effect ids) plus the two bitfields w (was tracked this cycle) and
n (newly tracked this cycle), one bit per nesting level. -/
structure DepData where
  subs : List Nat
  w : Nat
  n : Nat

/-- Store of dep records, one per (target, key) location; locations never
tracked hold the fresh empty dep that createDep would build on demand. -/
abbrev DepStore := Loc → DepData

/-- Pointwise update of one dep record. -/
def depUpdate (σ : DepStore) (d : Loc) (f : DepData → DepData) : DepStore :=
  fun x => if x = d then f (σ x) else σ x

/-- Modelled from the spec: wasTracked of the missing dep.ts tests the w
bitfield against the current track bit. -/
def wasTracked (dep : DepData) (bit : Nat) : Bool :=
  dep.w &&& bit ≠ 0

/-- Modelled from the spec: newTracked of the missing dep.ts tests the n
bitfield against the current track bit. -/
def newTracked (dep : DepData) (bit : Nat) : Bool :=
  dep.n &&& bit ≠ 0

/-- Clearing one bit of a bitfield (the bit argument is a power of two). -/
def clearBit (x bit : Nat) : Nat :=
  x ^^^ (x &&& bit)

/-- Models trackEffects (effect.ts): at depth at most 30 mark the dep as
newly tracked unless already so marked, and subscribe only when the dep
was not tracked by the previous run of this effect; past depth 30 fall
back to a membership test. On subscription the effect is added to the
dep's set and the dep is pushed onto the effect's dep list. The state is
the dep store together with the running effect's dep list. -/
def trackEffects (depth bit : Nat) (e : Nat) (σ : DepStore) (edeps : List Loc)
    (d : Loc) : DepStore × List Loc :=
  let dep := σ d
  let upd :=
    if depth ≤ 30 then
      if ¬ newTracked dep bit then
        (depUpdate σ d (fun dd => { dd with n := dd.n ||| bit }), !wasTracked dep bit)
      else (σ, false)
    else (σ, !decide (e ∈ dep.subs))
  if upd.2 then
    (depUpdate upd.1 d (fun dd => { dd with subs := dd.subs ++ [e] }), edeps ++ [d])
  else (upd.1, edeps)

/-- Modelled from the spec: initDepMarkers of the missing dep.ts marks
every dep already on the effect's list with the w bit of the current
level (section 4.5 step 5). -/
def initDepMarkers (σ : DepStore) (edeps : List Loc) (bit : Nat) : DepStore :=
  edeps.foldl (fun σ d => depUpdate σ d (fun dd => { dd with w := dd.w ||| bit })) σ

/-- One step of finalizeDepMarkers on one dep of the effect's list: drop
a dep whose w bit is set and n bit is not (unsubscribing the effect from
it), keep any other dep and clear its two bits. -/
def finalizeStep (e : Nat) (bit : Nat) (acc : DepStore × List Loc) (d : Loc) :
    DepStore × List Loc :=
  if wasTracked (acc.1 d) bit ∧ ¬ newTracked (acc.1 d) bit then
    (depUpdate acc.1 d (fun dd => { dd with subs := dd.subs.filter (fun x => x ≠ e) }),
     acc.2)
  else
    (depUpdate acc.1 d
      (fun dd => { dd with w := clearBit dd.w bit, n := clearBit dd.n bit }),
     acc.2 ++ [d])

/-- Modelled from the spec: finalizeDepMarkers of the missing dep.ts walks
the effect's dep list in place, dropping every dep whose w bit is set and
n bit is not (tracked by the previous run, not by this one) and removing
the effect from it, while keeping the others and clearing their two bits
(section 4.5 step 7). -/
def finalizeDepMarkers (σ : DepStore) (e : Nat) (edeps : List Loc) (bit : Nat) :
    DepStore × List Loc :=
  edeps.foldl (finalizeStep e bit) (σ, [])

/-- Models cleanupEffect (effect.ts): delete the effect from every dep on
its list and clear the list. -/
def cleanupEffect (σ : DepStore) (e : Nat) (edeps : List Loc) : DepStore × List Loc :=
  (edeps.foldl
    (fun σ d => depUpdate σ d (fun dd => { dd with subs := dd.subs.filter (fun x => x ≠ e) }))
    σ,
   [])

/-- Folding trackEffects over the sequence of locations the effect's fn
reads during one run (each read of a tracked location calls track, which
forwards to trackEffects on that location's dep). -/
def runTracks (depth bit : Nat) (e : Nat) (σ : DepStore) (edeps : List Loc)
    (reads : List Loc) : DepStore × List Loc :=
  reads.foldl (fun acc d => trackEffects depth bit e acc.1 acc.2 d) (σ, edeps)

/-- Models the dep bookkeeping of one ReactiveEffect.run (effect.ts) for
an active effect not already on the stack, entered at nesting depth
depth (so trackOpBit is two to that power): mark the previous deps, run
the fn (whose tracked reads are the given location sequence, whether the
fn then returns or throws; the finally block runs the finalization either
way), and finalize; past 30 levels run the full-cleanup fallback instead,
with no finalization. Returns the dep store and the effect's dep list
after the run. -/
def runDeps (depth : Nat) (e : Nat) (σ : DepStore) (edeps : List Loc)
    (reads : List Loc) : DepStore × List Loc :=
  let bit := 2 ^ depth
  if depth ≤ 30 then
    let σ1 := initDepMarkers σ edeps bit
    let r := runTracks depth bit e σ1 edeps reads
    finalizeDepMarkers r.1 e r.2 bit
  else
    let c := cleanupEffect σ e edeps
    runTracks depth bit e c.1 c.2 reads

/-! Runner creation (effect.ts, function effect). -/

/-- Values acceptable as the fn argument of effect: either a user function
(identified by an id) or a runner previously returned by effect, which
carries the fn its ReactiveEffect stores. -/
inductive FnVal where
  | user (id : Nat)
  | runnerFn (storedFn : FnVal)
deriving DecidableEq, Repr

/-- Models the unwrapping at the top of effect (effect.ts): when the
argument already is a runner, the new ReactiveEffect is built around the
fn stored in the runner's effect rather than around the runner itself. -/
def effectStoredFn : FnVal → FnVal
  | .runnerFn g => g
  | f => f

/-- Models effect (effect.ts) up to the returned runner: the runner is the
bound run of a fresh ReactiveEffect whose fn is the unwrapped argument. -/
def effectRunner (f : FnVal) : FnVal :=
  .runnerFn (effectStoredFn f)

/-- Number of user-fn executions one invocation of a value causes: calling
a runner runs its effect, which calls the stored fn once. -/
def countUserCalls : FnVal → Nat
  | .user _ => 1
  | .runnerFn g => countUserCalls g

/-! General lemmas. -/

/-- A single bit of a bitfield is set exactly when masking with its power
of two is nonzero. -/
theorem and_two_pow_ne (x k : Nat) : (x &&& 2 ^ k ≠ 0) ↔ x.testBit k = true := by
  rw [Nat.and_two_pow]; simp

/-- Setting a bit makes its test succeed. -/
theorem testBit_or_self (x k : Nat) : (x ||| 2 ^ k).testBit k = true := by
  simp [Nat.testBit_or]

/-- A proxy is never identical to the value it wraps. -/
theorem proxy_ne_target (m : Mode) (t : JVal) : JVal.proxy m t ≠ t := by
  intro h
  have := congrArg sizeOf h
  simp at this

/-- The run guard fails for an active effect already on the stack. -/
theorem runExecutesFn_false {effs : Nat → EffInfo} {stack : List Nat} {e : Nat}
    (hstk : e ∈ stack) (hact : (effs e).active = true) :
    runExecutesFn effs stack e = false := by
  simp [runExecutesFn, hact, hstk]

/-! Claim theorems. -/

/-- C7: a set or a delete on a readonly proxy leaves the heap unchanged,
reports success (true) to the caller, and fires no trigger and creates no
dep (the readonly traps never call track or trigger). -/
theorem readonly_write_noop (h : Heap) (target : JVal) (key : RKey) (value : JVal) :
    readonlySet h target key value = (true, h, []) ∧
    readonlyDelete h target key = (true, h, []) :=
  ⟨rfl, rfl⟩

/-- C10: passing a runner previously returned by effect back into effect
does not nest runners: the fresh ReactiveEffect is built around the
original user fn stored in the runner's effect, so the new runner is a
plain wrapper over the user fn and invoking it executes the user fn
exactly once per run instead of re-entering the old runner's guard
logic. -/
theorem effect_runner_unwrap (id : Nat) :
    effectStoredFn (effectRunner (FnVal.user id)) = FnVal.user id ∧
    effectRunner (effectRunner (FnVal.user id)) = FnVal.runnerFn (FnVal.user id) ∧
    countUserCalls (effectRunner (effectRunner (FnVal.user id))) = 1 :=
  ⟨rfl, rfl, rfl⟩

/-- C2: during a trigger, the fn body of an active effect that is on the
active-effect stack never executes when its allowRecurse flag is unset:
either it is the very effect the trigger originated from and the
triggerEffects filter skips it, or run is entered and its stack guard
returns before calling fn. In particular an effect that writes a location
it also read re-triggers only itself, is filtered, and therefore
terminates instead of looping forever. -/
theorem triggerEffects_stack_guard (dep : List Nat) (effs : Nat → EffInfo)
    (act : Option Nat) (stack : List Nat) (e : Nat)
    (hstk : e ∈ stack) (hact : (effs e).active = true)
    (_hrec : (effs e).allowRecurse = false) :
    e ∉ (triggerEffects effs act stack dep).fnRan := by
  induction dep with
  | nil => simp [triggerEffects]
  | cons a rest ih =>
    rw [triggerEffects]
    split
    · split
      · intro hmem
        simp only [] at hmem
        rcases List.mem_ite_nil_right.mp hmem with ⟨hfn, hea⟩
        rcases List.mem_singleton.mp hea
        rw [runExecutesFn_false hstk hact] at hfn
        simp at hfn
      · intro hmem
        simp only [List.mem_append] at hmem
        rcases hmem with hmem | hmem
        · rcases List.mem_ite_nil_right.mp hmem with ⟨hfn, hea⟩
          rcases List.mem_singleton.mp hea
          rw [runExecutesFn_false hstk hact] at hfn
          simp at hfn
        · exact ih hmem
    · exact ih

/-- Witness for C2 at concrete input: a self-triggering effect (the dep
holds only the running effect itself) does not re-execute. -/
theorem triggerEffects_stack_guard_witness :
    (5 ∈ [5] ∧
      ((fun _ => (⟨true, false, false, false⟩ : EffInfo)) 5).active = true ∧
      ((fun _ => (⟨true, false, false, false⟩ : EffInfo)) 5).allowRecurse = false) ∧
    5 ∉ (triggerEffects (fun _ => ⟨true, false, false, false⟩) (some 5) [5] [5]).fnRan :=
  ⟨⟨by decide, by decide, by decide⟩,
    triggerEffects_stack_guard [5] (fun _ => ⟨true, false, false, false⟩) (some 5) [5] 5
      (by decide) (by decide) (by decide)⟩

/-- Effects used by the C3 counterexample: effect 1 throws when invoked,
every other effect is an ordinary non-throwing active effect. -/
def effsCex : Nat → EffInfo :=
  fun i => if i = 1 then ⟨true, false, false, true⟩ else ⟨true, false, false, false⟩

/-- C3 counterexample: in a batch of two subscribed effects where the
first one throws, the second is never invoked — the triggerEffects loop
has no isolation around the call, so the exception aborts the batch. -/
theorem triggerEffects_no_isolation_cex :
    (triggerEffects effsCex none [] [1, 2]).invoked = [1] ∧
    2 ∉ (triggerEffects effsCex none [] [1, 2]).invoked ∧
    (triggerEffects effsCex none [] [1, 2]).ok = false := by
  decide

/-- C3 amended: when an effect of a trigger batch throws, the exception
escapes triggerEffects at once: exactly the filter-passing effects before
it plus the throwing effect itself are invoked, and the effects after it
in the batch are not run. -/
theorem triggerEffects_throw_aborts (effs : Nat → EffInfo) (act : Option Nat)
    (stack : List Nat) (pre post : List Nat) (t : Nat)
    (hpre : ∀ x ∈ pre, (effs x).throws = false)
    (ht : passesFilter effs act t = true)
    (htt : (effs t).throws = true)
    (hexec : ((effs t).hasScheduler || runExecutesFn effs stack t) = true) :
    (triggerEffects effs act stack (pre ++ t :: post)).invoked =
      pre.filter (passesFilter effs act) ++ [t] ∧
    (triggerEffects effs act stack (pre ++ t :: post)).ok = false := by
  induction pre with
  | nil =>
    simp only [List.nil_append, List.filter_nil]
    rw [triggerEffects]
    simp [ht, htt, hexec]
  | cons a pre ih =>
    have hthrow : (effs a).throws = false := hpre a (by simp)
    have ih2 := ih (fun x hx => hpre x (by simp [hx]))
    simp only [List.cons_append]
    rw [triggerEffects]
    split
    next hpa =>
      rw [if_neg (by simp [hthrow])]
      simp [hpa, ih2.1, ih2.2]
    next hpa =>
      rw [List.filter_cons_of_neg (by simpa using hpa)]
      exact ih2

/-- Witness for C3's amended theorem at concrete input: effect 2 runs,
effect 1 throws, effect 3 after it is not invoked. -/
theorem triggerEffects_throw_aborts_witness :
    ((∀ x ∈ [2], (effsCex x).throws = false) ∧
      passesFilter effsCex none 1 = true ∧
      (effsCex 1).throws = true ∧
      ((effsCex 1).hasScheduler || runExecutesFn effsCex [] 1) = true) ∧
    ((triggerEffects effsCex none [] ([2] ++ 1 :: [3])).invoked =
        [2].filter (passesFilter effsCex none) ++ [1] ∧
      (triggerEffects effsCex none [] ([2] ++ 1 :: [3])).ok = false) :=
  ⟨⟨by decide, by decide, by decide, by decide⟩,
    triggerEffects_throw_aborts effsCex none [] [2] [3] 1
      (by decide) (by decide) (by decide) (by decide)⟩

/-- Heap used by the C4 counterexample: object 0 owns key k holding the
raw object 1. -/
def cexHeap : Heap :=
  { fields := fun i k => if i = 0 ∧ k = RKey.named "k" then some (JVal.obj 1) else none,
    arrLen := fun _ => 0,
    refVal := fun _ => JVal.undefined }

/-- C4 counterexample: writing a readonly proxy of the very object already
stored under the key is a set on a mutable proxy whose new raw value
equals the old raw value (toRaw on both sides gives object 1), yet a SET
trigger is issued: because the incoming value is readonly, the setter
skips the toRaw normalization and compares the proxy against the raw old
value, which differ by identity. -/
theorem setter_raw_equal_triggers_cex :
    toRaw (JVal.proxy .readonly (JVal.obj 1)) =
      toRaw (readField cexHeap (JVal.obj 0) (RKey.named "k")) ∧
    hadKeyOf cexHeap (JVal.obj 0) (RKey.named "k") = true ∧
    (createSetter false cexHeap (JVal.obj 0) (RKey.named "k")
        (JVal.proxy .readonly (JVal.obj 1)) (JVal.proxy .reactive (JVal.obj 0))).2.2 =
      [TrigEvent.objTrig 0 .set (RKey.named "k")] := by
  decide

/-- C4 amended: for a deep set on a mutable proxy whose incoming value is
not readonly, when the key is already present and the raw new value
equals the raw old value under the NaN-aware identity comparison, no
trigger is issued (hence no subscribed effect re-runs). -/
theorem setter_unchanged_no_trigger (h : Heap) (target : JVal) (key : RKey)
    (value receiver : JVal)
    (hro : value.isReadonlyVal = false)
    (hraw : toRaw value = toRaw (readField h target key))
    (hhad : hadKeyOf h target key = true) :
    (createSetter false h target key value receiver).2.2 = [] := by
  rw [createSetter]
  rw [if_pos (by simp [hro])]
  rw [if_neg (by rw [hraw]; rintro ⟨-, h1, h2⟩; exact h2 h1)]
  rw [setterRest]
  simp only [hhad]
  split
  · rw [if_neg (by simp), if_neg (by simp [hasChanged, hraw])]
  · rfl

/-- Witness for C4's amended theorem at concrete input: re-assigning the
raw object already stored issues no trigger. -/
theorem setter_unchanged_no_trigger_witness :
    ((JVal.obj 1).isReadonlyVal = false ∧
      toRaw (JVal.obj 1) = toRaw (readField cexHeap (JVal.obj 0) (RKey.named "k")) ∧
      hadKeyOf cexHeap (JVal.obj 0) (RKey.named "k") = true) ∧
    (createSetter false cexHeap (JVal.obj 0) (RKey.named "k")
        (JVal.obj 1) (JVal.proxy .reactive (JVal.obj 0))).2.2 = [] :=
  ⟨⟨by decide, by decide, by decide⟩,
    setter_unchanged_no_trigger cexHeap (JVal.obj 0) (RKey.named "k")
      (JVal.obj 1) (JVal.proxy .reactive (JVal.obj 0))
      (by decide) (by decide) (by decide)⟩

/-- C9: a deep set on a non-array mutable proxy whose stored raw old value
is a ref while the raw incoming value is not forwards the write into the
ref's value slot and returns true: no own-property is written, no trigger
is issued for (target, key), and the only event that may fire is the ref
cell's own dep (exactly the events of the ref's value setter). -/
theorem setter_ref_forward (h : Heap) (target : JVal) (key : RKey)
    (value receiver : JVal) (i : Nat)
    (harr : target.isArrayVal = false)
    (href : toRaw (readField h target key) = JVal.refv i)
    (hro : value.isReadonlyVal = false)
    (hnr : (toRaw value).isRefVal = false) :
    (createSetter false h target key value receiver).1 = true ∧
    ((createSetter false h target key value receiver).2.1).refVal i = toRaw value ∧
    ((createSetter false h target key value receiver).2.1).fields = h.fields ∧
    (createSetter false h target key value receiver).2.2 = (refSetValue h i (toRaw value)).2 ∧
    ∀ ev ∈ (createSetter false h target key value receiver).2.2, ev = TrigEvent.refTrig i := by
  simp only [createSetter]
  rw [if_pos (by simp [hro])]
  rw [if_pos ⟨by simp [harr], by rw [href]; rfl, by simp [hnr]⟩]
  rw [href]
  simp only [refIdOf]
  rw [refSetValue]
  split
  next hch =>
    refine ⟨by simp, by simp, by simp, by simp, ?_⟩
    intro ev hev
    simpa using hev
  next hch =>
    have hval : toRaw value = h.refVal i := by
      by_contra hne
      exact hch (by simpa [hasChanged] using hne)
    exact ⟨by simp, by simp [hval], by simp, by simp, by simp⟩

/-- Heap used by the C9 witness: object 0 owns key r holding ref cell 3. -/
def refHeap : Heap :=
  { fields := fun i k => if i = 0 ∧ k = RKey.named "r" then some (JVal.refv 3) else none,
    arrLen := fun _ => 0,
    refVal := fun _ => JVal.prim 0 }

/-- Witness for C9 at concrete input: writing the primitive 5 over a
stored ref lands in the ref cell and fires only the ref's own dep. -/
theorem setter_ref_forward_witness :
    ((JVal.obj 0).isArrayVal = false ∧
      toRaw (readField refHeap (JVal.obj 0) (RKey.named "r")) = JVal.refv 3 ∧
      (JVal.prim 5).isReadonlyVal = false ∧
      (toRaw (JVal.prim 5)).isRefVal = false) ∧
    ((createSetter false refHeap (JVal.obj 0) (RKey.named "r")
        (JVal.prim 5) (JVal.proxy .reactive (JVal.obj 0))).1 = true ∧
      ((createSetter false refHeap (JVal.obj 0) (RKey.named "r")
        (JVal.prim 5) (JVal.proxy .reactive (JVal.obj 0))).2.1).refVal 3 = toRaw (JVal.prim 5) ∧
      ((createSetter false refHeap (JVal.obj 0) (RKey.named "r")
        (JVal.prim 5) (JVal.proxy .reactive (JVal.obj 0))).2.1).fields = refHeap.fields ∧
      (createSetter false refHeap (JVal.obj 0) (RKey.named "r")
        (JVal.prim 5) (JVal.proxy .reactive (JVal.obj 0))).2.2 =
          (refSetValue refHeap 3 (toRaw (JVal.prim 5))).2 ∧
      ∀ ev ∈ (createSetter false refHeap (JVal.obj 0) (RKey.named "r")
        (JVal.prim 5) (JVal.proxy .reactive (JVal.obj 0))).2.2, ev = TrigEvent.refTrig 3) :=
  ⟨⟨by decide, by decide, by decide, by decide⟩,
    setter_ref_forward refHeap (JVal.obj 0) (RKey.named "r")
      (JVal.prim 5) (JVal.proxy .reactive (JVal.obj 0)) 3
      (by decide) (by decide) (by decide) (by decide)⟩

/-! Factory lemmas for C5 and C6. -/

/-- Reading a mode's map after writing a mode's map. -/
theorem mapFor_setMapFor (mo mo2 : Mode) (st : FactoryState) (m : List (JVal × JVal)) :
    mapFor mo2 (setMapFor mo st m) = if mo2 = mo then m else mapFor mo2 st := by
  cases mo <;> cases mo2 <;> simp [mapFor, setMapFor]

/-- A successful identity-map lookup comes from a stored entry. -/
theorem lookupAssoc_mem {m : List (JVal × JVal)} {t p : JVal}
    (h : lookupAssoc m t = some p) : (t, p) ∈ m := by
  unfold lookupAssoc at h
  cases hf : m.find? (fun q => q.1 = t) with
  | none => rw [hf] at h; simp at h
  | some q =>
    rw [hf] at h
    simp only [Option.map] at h
    have hq := List.mem_of_find?_eq_some hf
    have hq1 : q.1 = t := by
      have := List.find?_some hf
      simpa using this
    have : (t, p) = q := by
      cases q
      simp only [Option.some.injEq] at h
      simp_all
    rw [this]
    exact hq

/-- createReactiveObject preserves well-formedness of the identity maps:
the only entry it ever inserts is (target, proxy mode target). -/
theorem createReactiveObject_wf (mo : Mode) (st : FactoryState) (t : JVal)
    (hwf : FactoryWF st) : FactoryWF (createReactiveObject mo st t).2 := by
  rw [createReactiveObject]
  split
  · exact hwf
  · split
    · exact hwf
    · split
      next p hp => exact hwf
      next hp =>
        split
        · exact hwf
        · intro mo2 t2 p2 hmem
          rw [mapFor_setMapFor] at hmem
          split at hmem
          next heq =>
            subst heq
            rcases List.mem_cons.mp hmem with h1 | h1
            · rw [Prod.mk.injEq] at h1
              rw [h1.2, h1.1]
            · exact hwf mo2 t2 p2 h1
          next => exact hwf mo2 t2 p2 hmem

/-- On a plain object target, every factory mode yields the canonical
proxy of that mode (either the stored one, equal to it by map
well-formedness, or a fresh one). -/
theorem createReactiveObject_obj (mo : Mode) (st : FactoryState) (id : Nat)
    (hwf : FactoryWF st) :
    (createReactiveObject mo st (JVal.obj id)).1 = JVal.proxy mo (JVal.obj id) := by
  rw [createReactiveObject]
  rw [if_neg (by simp [JVal.isObjectVal])]
  rw [if_neg (by simp [JVal.rawOf])]
  cases hl : lookupAssoc (mapFor mo st) (JVal.obj id) with
  | some p =>
    simp only [hl]
    exact (hwf mo (JVal.obj id) p (lookupAssoc_mem hl)).symm ▸ rfl
  | none =>
    simp only [hl]
    rw [if_neg (by simp [getTargetType])]

/-- wrapF on a plain object yields the canonical proxy of the mode. -/
theorem wrapF_obj (mo : Mode) (st : FactoryState) (id : Nat) (hwf : FactoryWF st) :
    (wrapF mo st (JVal.obj id)).1 = JVal.proxy mo (JVal.obj id) := by
  cases mo
  · rw [wrapF, reactiveF, if_neg (by simp [JVal.isReadonlyVal])]
    exact createReactiveObject_obj _ _ _ hwf
  · exact createReactiveObject_obj _ _ _ hwf
  · exact createReactiveObject_obj _ _ _ hwf
  · exact createReactiveObject_obj _ _ _ hwf

/-- wrapF preserves well-formedness of the identity maps. -/
theorem wrapF_wf (mo : Mode) (st : FactoryState) (t : JVal) (hwf : FactoryWF st) :
    FactoryWF (wrapF mo st t).2 := by
  cases mo
  · rw [wrapF, reactiveF]
    split
    · exact hwf
    · exact createReactiveObject_wf _ _ _ hwf
  · exact createReactiveObject_wf _ _ _ hwf
  · exact createReactiveObject_wf _ _ _ hwf
  · exact createReactiveObject_wf _ _ _ hwf

/-- Feeding a proxy back into the constructor of its own mode returns it
unchanged without touching the maps. -/
theorem wrapF_proxy_fixed (mo : Mode) (st : FactoryState) (t : JVal) :
    wrapF mo st (JVal.proxy mo t) = (JVal.proxy mo t, st) := by
  cases mo <;>
    simp [wrapF, reactiveF, shallowReactiveF, readonlyF, shallowReadonlyF,
      createReactiveObject, JVal.isReadonlyVal, JVal.isObjectVal, JVal.rawOf,
      JVal.isReactiveFlag, isModeReadonly]

/-- The empty factory state. -/
def emptyFactory : FactoryState := ⟨[], [], [], []⟩

/-- The empty factory state is well-formed. -/
theorem emptyFactory_wf : FactoryWF emptyFactory := by
  intro mo t p h
  cases mo <;> simp [mapFor, emptyFactory] at h

/-- C5: wrapping is idempotent — applying the same constructor to the
proxy obtained from wrapping a plain object returns that proxy unchanged
(with unchanged maps), with the single exception that readonly applied to
a reactive proxy produces a distinct readonly view over it. -/
theorem wrap_idempotent (mo : Mode) (st : FactoryState) (id : Nat)
    (hwf : FactoryWF st) :
    wrapF mo (wrapF mo st (JVal.obj id)).2 ((wrapF mo st (JVal.obj id)).1) =
      ((wrapF mo st (JVal.obj id)).1, (wrapF mo st (JVal.obj id)).2) ∧
    (mo = Mode.reactive →
      (readonlyF (wrapF mo st (JVal.obj id)).2 ((wrapF mo st (JVal.obj id)).1)).1 =
        JVal.proxy .readonly ((wrapF mo st (JVal.obj id)).1) ∧
      (readonlyF (wrapF mo st (JVal.obj id)).2 ((wrapF mo st (JVal.obj id)).1)).1 ≠
        (wrapF mo st (JVal.obj id)).1) := by
  have hp := wrapF_obj mo st id hwf
  have hwf2 := wrapF_wf mo st (JVal.obj id) hwf
  constructor
  · rw [hp]
    exact wrapF_proxy_fixed mo _ _
  · intro hmo
    subst hmo
    have hro : (readonlyF (wrapF .reactive st (JVal.obj id)).2
        ((wrapF .reactive st (JVal.obj id)).1)).1 =
        JVal.proxy .readonly ((wrapF .reactive st (JVal.obj id)).1) := by
      rw [hp, readonlyF, createReactiveObject]
      rw [if_neg (by simp [JVal.isObjectVal])]
      rw [if_neg (by simp [JVal.rawOf, isModeReadonly, JVal.isReactiveFlag])]
      cases hl : lookupAssoc (mapFor .readonly (wrapF .reactive st (JVal.obj id)).2)
          (JVal.proxy .reactive (JVal.obj id)) with
      | some p =>
        simp only [hl]
        exact (hwf2 .readonly _ p (lookupAssoc_mem hl)).symm ▸ rfl
      | none =>
        simp only [hl]
        rw [if_neg (by simp [getTargetType])]
    refine ⟨hro, ?_⟩
    rw [hro]
    exact proxy_ne_target _ _

/-- Witness for C5 at concrete input: the empty maps and object 0 under
the reactive constructor. -/
theorem wrap_idempotent_witness :
    FactoryWF emptyFactory ∧
    (wrapF .reactive (wrapF .reactive emptyFactory (JVal.obj 0)).2
        ((wrapF .reactive emptyFactory (JVal.obj 0)).1) =
      ((wrapF .reactive emptyFactory (JVal.obj 0)).1,
        (wrapF .reactive emptyFactory (JVal.obj 0)).2) ∧
    (Mode.reactive = Mode.reactive →
      (readonlyF (wrapF .reactive emptyFactory (JVal.obj 0)).2
          ((wrapF .reactive emptyFactory (JVal.obj 0)).1)).1 =
        JVal.proxy .readonly ((wrapF .reactive emptyFactory (JVal.obj 0)).1) ∧
      (readonlyF (wrapF .reactive emptyFactory (JVal.obj 0)).2
          ((wrapF .reactive emptyFactory (JVal.obj 0)).1)).1 ≠
        (wrapF .reactive emptyFactory (JVal.obj 0)).1)) :=
  ⟨emptyFactory_wf, wrap_idempotent .reactive emptyFactory 0 emptyFactory_wf⟩

/-- Values that are not proxies are fixed points of toRaw. -/
theorem toRaw_nonproxy (v : JVal) (h : v.isProxyVal = false) : toRaw v = v := by
  cases v <;> simp [toRaw, JVal.isProxyVal] at h ⊢

/-- C6: toRaw of the reactive proxy of a plain object is that object
itself, and toRaw strips arbitrarily many nested proxy layers (readonly
over reactive and any other mode chain) down to the underlying non-proxy
target. -/
theorem toRaw_unwraps (st : FactoryState) (id : Nat) (hwf : FactoryWF st) :
    toRaw (reactiveF st (JVal.obj id)).1 = JVal.obj id ∧
    (∀ (ms : List Mode) (v : JVal), v.isProxyVal = false →
      toRaw (ms.foldr JVal.proxy v) = v) := by
  constructor
  · have hp : (reactiveF st (JVal.obj id)).1 = JVal.proxy .reactive (JVal.obj id) :=
      wrapF_obj .reactive st id hwf
    rw [hp]
    simp [toRaw]
  · intro ms v hv
    induction ms with
    | nil => exact toRaw_nonproxy v hv
    | cons m ms ih => simpa [toRaw] using ih

/-- Witness for C6 at concrete input: empty maps, object 0, and the
two-layer chain readonly over reactive. -/
theorem toRaw_unwraps_witness :
    FactoryWF emptyFactory ∧
    (toRaw (reactiveF emptyFactory (JVal.obj 0)).1 = JVal.obj 0 ∧
      (∀ (ms : List Mode) (v : JVal), v.isProxyVal = false →
        toRaw (ms.foldr JVal.proxy v) = v)) :=
  ⟨emptyFactory_wf, toRaw_unwraps emptyFactory 0 emptyFactory_wf⟩

/-- C8: a trigger with key length on an array selects exactly the deps
registered under the key length together with the deps of every integer
index at or beyond the new length (so shrinking re-runs effects that had
read a now-removed index), assuming the deps map carries no iteration
sentinel keys (in JS those are symbols, which the length branch would not
compare meaningfully). -/
theorem trigger_length_deps (depsMap : List (RKey × Nat)) (isMap : Bool)
    (ty : TrigOp) (newLen : Nat) (d : Nat)
    (hty : ty ≠ TrigOp.clear)
    (_hkeys : ∀ p ∈ depsMap, p.1 ≠ RKey.iterate ∧ p.1 ≠ RKey.mapKeyIterate) :
    d ∈ trigger depsMap true isMap ty (some RKey.length) newLen ↔
      ∃ k, (k, d) ∈ depsMap ∧ (k = RKey.length ∨ ∃ n, newLen ≤ n ∧ k = RKey.idx n) := by
  rw [trigger.eq_def]
  rw [if_neg (by simp [hty])]
  rw [if_pos (by simp)]
  constructor
  · intro hmem
    rcases List.mem_map.mp hmem with ⟨p, hp, hpd⟩
    rcases List.mem_filter.mp hp with ⟨hpm, hcond⟩
    refine ⟨p.1, ?_, ?_⟩
    · rw [← hpd]
      simpa using hpm
    · rcases of_decide_eq_true hcond with h1 | h1
      · exact Or.inl h1
      · cases hk : p.1 <;> rw [hk] at h1 <;> simp [keyGeLen] at h1 ⊢
        exact h1
  · rintro ⟨k, hk, hcond⟩
    refine List.mem_map.mpr ⟨(k, d), ?_, rfl⟩
    refine List.mem_filter.mpr ⟨hk, ?_⟩
    rcases hcond with h1 | ⟨n, hn, h1⟩
    · simp [h1]
    · simp [h1, keyGeLen, hn]

/-- Witness for C8 at concrete input: shrinking a four-element array to
length two fires the dep of index 3 (a removed element) along with the
length dep, fires the dep of index 1 only through its absence, and leaves
a named key's dep alone. -/
theorem trigger_length_deps_witness :
    (TrigOp.set ≠ TrigOp.clear ∧
      (∀ p ∈ [(RKey.length, 10), (RKey.idx 3, 11), (RKey.idx 1, 12), (RKey.named "a", 13)],
        p.1 ≠ RKey.iterate ∧ p.1 ≠ RKey.mapKeyIterate)) ∧
    (11 ∈ trigger [(RKey.length, 10), (RKey.idx 3, 11), (RKey.idx 1, 12), (RKey.named "a", 13)]
        true false TrigOp.set (some RKey.length) 2 ↔
      ∃ k, (k, 11) ∈ [(RKey.length, 10), (RKey.idx 3, 11), (RKey.idx 1, 12), (RKey.named "a", 13)] ∧
        (k = RKey.length ∨ ∃ n, 2 ≤ n ∧ k = RKey.idx n)) :=
  ⟨⟨by decide, by decide⟩,
    trigger_length_deps [(RKey.length, 10), (RKey.idx 3, 11), (RKey.idx 1, 12), (RKey.named "a", 13)]
      false TrigOp.set 2 11 (by decide) (by decide)⟩

/-! Supporting lemmas for the dep-diff law (C1). -/

/-- Updating a dep record changes only that location. -/
theorem depUpdate_same (σ : DepStore) (d : Loc) (f : DepData → DepData) :
    depUpdate σ d f d = f (σ d) := by
  simp [depUpdate]

/-- Reading another location after a dep update is unchanged. -/
theorem depUpdate_ne (σ : DepStore) (d x : Loc) (f : DepData → DepData) (h : x ≠ d) :
    depUpdate σ d f x = σ x := by
  simp [depUpdate, h]

/-- The w test ignores the n and subs fields. -/
theorem wasTracked_mk (s : List Nat) (w n b : Nat) :
    wasTracked ⟨s, w, n⟩ b = wasTracked ⟨[], w, 0⟩ b := rfl

/-- The w bit test in terms of testBit. -/
theorem wasTracked_iff (dd : DepData) (k : Nat) :
    wasTracked dd (2 ^ k) = true ↔ dd.w.testBit k = true := by
  simp only [wasTracked, decide_eq_true_eq]
  exact and_two_pow_ne dd.w k

/-- The n bit test in terms of testBit. -/
theorem newTracked_iff (dd : DepData) (k : Nat) :
    newTracked dd (2 ^ k) = true ↔ dd.n.testBit k = true := by
  simp only [newTracked, decide_eq_true_eq]
  exact and_two_pow_ne dd.n k

/-- Setting the w bit makes the w test succeed. -/
theorem wasTracked_setW (dd : DepData) (k : Nat) :
    wasTracked { dd with w := dd.w ||| 2 ^ k } (2 ^ k) = true := by
  rw [wasTracked_iff]
  exact testBit_or_self dd.w k

/-- Setting the n bit makes the n test succeed. -/
theorem newTracked_setN (dd : DepData) (k : Nat) :
    newTracked { dd with n := dd.n ||| 2 ^ k } (2 ^ k) = true := by
  rw [newTracked_iff]
  exact testBit_or_self dd.n k

/-- Unfolding initDepMarkers one element at a time. -/
theorem initDepMarkers_cons (σ : DepStore) (a : Loc) (L : List Loc) (b : Nat) :
    initDepMarkers σ (a :: L) b =
      initDepMarkers (depUpdate σ a (fun dd => { dd with w := dd.w ||| b })) L b := rfl

/-- After initDepMarkers, the w bit of the level is set exactly on the
marked list (or wherever it was already set). -/
theorem initDepMarkers_w (k : Nat) (L : List Loc) (σ : DepStore) (d : Loc) :
    wasTracked (initDepMarkers σ L (2 ^ k) d) (2 ^ k) = true ↔
      (d ∈ L ∨ wasTracked (σ d) (2 ^ k) = true) := by
  induction L generalizing σ with
  | nil => simp [initDepMarkers]
  | cons a L ih =>
    rw [initDepMarkers_cons, ih]
    by_cases hd : d = a
    · subst hd
      rw [depUpdate_same]
      simp [wasTracked_setW]
    · rw [depUpdate_ne _ _ _ _ hd]
      simp only [List.mem_cons]
      tauto

/-- initDepMarkers leaves every n field unchanged. -/
theorem initDepMarkers_n (L : List Loc) (σ : DepStore) (b : Nat) (d : Loc) :
    (initDepMarkers σ L b d).n = (σ d).n := by
  induction L generalizing σ with
  | nil => simp [initDepMarkers]
  | cons a L ih =>
    rw [initDepMarkers_cons, ih]
    by_cases hd : d = a
    · subst hd; rw [depUpdate_same]
    · rw [depUpdate_ne _ _ _ _ hd]

/-- initDepMarkers leaves every subscriber set unchanged. -/
theorem initDepMarkers_subs (L : List Loc) (σ : DepStore) (b : Nat) (d : Loc) :
    (initDepMarkers σ L b d).subs = (σ d).subs := by
  induction L generalizing σ with
  | nil => simp [initDepMarkers]
  | cons a L ih =>
    rw [initDepMarkers_cons, ih]
    by_cases hd : d = a
    · subst hd; rw [depUpdate_same]
    · rw [depUpdate_ne _ _ _ _ hd]

/-- Unfolding cleanupEffect one element at a time. -/
theorem cleanupEffect_cons (σ : DepStore) (e : Nat) (a : Loc) (L : List Loc) :
    cleanupEffect σ e (a :: L) =
      cleanupEffect
        (depUpdate σ a (fun dd => { dd with subs := dd.subs.filter (fun x => x ≠ e) }))
        e L := rfl

/-- After cleanupEffect, the effect subscribes to a location exactly when
it did before and the location was not on the cleaned list. -/
theorem cleanupEffect_subs (e : Nat) (L : List Loc) (σ : DepStore) (d : Loc) :
    e ∈ ((cleanupEffect σ e L).1 d).subs ↔ (e ∈ (σ d).subs ∧ d ∉ L) := by
  induction L generalizing σ with
  | nil => simp [cleanupEffect]
  | cons a L ih =>
    rw [cleanupEffect_cons, ih]
    by_cases hd : d = a
    · subst hd
      rw [depUpdate_same]
      simp [List.mem_filter]
    · rw [depUpdate_ne _ _ _ _ hd]
      simp only [List.mem_cons]
      tauto

/-- The w test ignores an n update. -/
theorem wasTracked_updN (dd : DepData) (x b : Nat) :
    wasTracked { dd with n := x } b = wasTracked dd b := rfl

/-- The w test ignores a subs update. -/
theorem wasTracked_updSubs (dd : DepData) (s : List Nat) (b : Nat) :
    wasTracked { dd with subs := s } b = wasTracked dd b := rfl

/-- The n test ignores a subs update. -/
theorem newTracked_updSubs (dd : DepData) (s : List Nat) (b : Nat) :
    newTracked { dd with subs := s } b = newTracked dd b := rfl

/-- Unfolding runTracks one read at a time. -/
theorem runTracks_cons (k b e : Nat) (σ : DepStore) (ed : List Loc) (r : Loc)
    (rest : List Loc) :
    runTracks k b e σ ed (r :: rest) =
      runTracks k b e (trackEffects k b e σ ed r).1 (trackEffects k b e σ ed r).2 rest := rfl

/-- trackEffects on a dep already marked newly tracked does nothing. -/
theorem trackEffects_already {k : Nat} (hk : k ≤ 30) {b : Nat} {σ : DepStore} {d : Loc}
    (hn : newTracked (σ d) b = true) (e : Nat) (ed : List Loc) :
    trackEffects k b e σ ed d = (σ, ed) := by
  simp [trackEffects, hk, hn]

/-- trackEffects on a dep tracked by the previous run only marks it newly
tracked without re-subscribing. -/
theorem trackEffects_wasTracked {k : Nat} (hk : k ≤ 30) {b : Nat} {σ : DepStore} {d : Loc}
    (hn : newTracked (σ d) b = false) (hw : wasTracked (σ d) b = true)
    (e : Nat) (ed : List Loc) :
    trackEffects k b e σ ed d =
      (depUpdate σ d (fun dd => { dd with n := dd.n ||| b }), ed) := by
  simp [trackEffects, hk, hn, hw]

/-- trackEffects on a fresh dep marks it newly tracked, adds the effect to
its subscribers and pushes it onto the effect's dep list. -/
theorem trackEffects_fresh {k : Nat} (hk : k ≤ 30) {b : Nat} {σ : DepStore} {d : Loc}
    (hn : newTracked (σ d) b = false) (hw : wasTracked (σ d) b = false)
    (e : Nat) (ed : List Loc) :
    trackEffects k b e σ ed d =
      (depUpdate (depUpdate σ d (fun dd => { dd with n := dd.n ||| b })) d
        (fun dd => { dd with subs := dd.subs ++ [e] }), ed ++ [d]) := by
  simp [trackEffects, hk, hn, hw]

/-- Invariant of the tracking phase at nesting depth at most 30: starting
from a store whose w bits mark exactly the previous dep list edeps0, whose
n bits mark exactly the already-processed reads S, with the effect
subscribed exactly on edeps0 and S and its dep list holding exactly those
locations without duplicates, processing further reads extends S by those
reads while keeping every part of the invariant. -/
theorem runTracks_inv (k : Nat) (hk : k ≤ 30) (e : Nat) (edeps0 : List Loc) :
    ∀ (reads S : List Loc) (σ : DepStore) (ed : List Loc),
      (∀ d, wasTracked (σ d) (2 ^ k) = true ↔ d ∈ edeps0) →
      (∀ d, newTracked (σ d) (2 ^ k) = true ↔ d ∈ S) →
      (∀ d, e ∈ (σ d).subs ↔ (d ∈ edeps0 ∨ d ∈ S)) →
      (∀ d, d ∈ ed ↔ (d ∈ edeps0 ∨ d ∈ S)) →
      ed.Nodup →
      (∀ d, wasTracked ((runTracks k (2 ^ k) e σ ed reads).1 d) (2 ^ k) = true ↔ d ∈ edeps0) ∧
      (∀ d, newTracked ((runTracks k (2 ^ k) e σ ed reads).1 d) (2 ^ k) = true ↔
        (d ∈ S ∨ d ∈ reads)) ∧
      (∀ d, e ∈ ((runTracks k (2 ^ k) e σ ed reads).1 d).subs ↔
        (d ∈ edeps0 ∨ d ∈ S ∨ d ∈ reads)) ∧
      (∀ d, d ∈ (runTracks k (2 ^ k) e σ ed reads).2 ↔
        (d ∈ edeps0 ∨ d ∈ S ∨ d ∈ reads)) ∧
      (runTracks k (2 ^ k) e σ ed reads).2.Nodup := by
  intro reads
  induction reads with
  | nil =>
    intro S σ ed hW hN hS hE hnd
    simp only [runTracks, List.foldl_nil]
    refine ⟨hW, fun d => ?_, fun d => ?_, fun d => ?_, hnd⟩
    · rw [hN d]; simp
    · rw [hS d]; simp
    · rw [hE d]; simp
  | cons r rest ih =>
    intro S σ ed hW hN hS hE hnd
    rw [runTracks_cons]
    by_cases hn : newTracked (σ r) (2 ^ k) = true
    · rw [trackEffects_already hk hn e ed]
      have hrS : r ∈ S := (hN r).mp hn
      have hN1 : ∀ d, newTracked (σ d) (2 ^ k) = true ↔ d ∈ r :: S := by
        intro d
        rw [hN d]
        simp only [List.mem_cons]
        constructor
        · tauto
        · rintro (h | h)
          · subst h; exact hrS
          · exact h
      have hS1 : ∀ d, e ∈ (σ d).subs ↔ (d ∈ edeps0 ∨ d ∈ r :: S) := by
        intro d
        rw [hS d]
        simp only [List.mem_cons]
        constructor
        · tauto
        · rintro (h | h | h)
          · tauto
          · subst h; exact Or.inr hrS
          · tauto
      have hE1 : ∀ d, d ∈ ed ↔ (d ∈ edeps0 ∨ d ∈ r :: S) := by
        intro d
        rw [hE d]
        simp only [List.mem_cons]
        constructor
        · tauto
        · rintro (h | h | h)
          · tauto
          · subst h; exact Or.inr hrS
          · tauto
      have hrec := ih (r :: S) σ ed hW hN1 hS1 hE1 hnd
      exact ⟨hrec.1,
        fun d => (hrec.2.1 d).trans (by simp only [List.mem_cons]; tauto),
        fun d => (hrec.2.2.1 d).trans (by simp only [List.mem_cons]; tauto),
        fun d => (hrec.2.2.2.1 d).trans (by simp only [List.mem_cons]; tauto),
        hrec.2.2.2.2⟩
    · have hn0 : newTracked (σ r) (2 ^ k) = false := by simpa using hn
      by_cases hw : wasTracked (σ r) (2 ^ k) = true
      · rw [trackEffects_wasTracked hk hn0 hw e ed]
        have hr0 : r ∈ edeps0 := (hW r).mp hw
        have hW1 : ∀ d,
            wasTracked (depUpdate σ r (fun dd => { dd with n := dd.n ||| 2 ^ k }) d)
              (2 ^ k) = true ↔ d ∈ edeps0 := by
          intro d
          by_cases hd : d = r
          · subst hd; rw [depUpdate_same, wasTracked_updN]; exact hW d
          · rw [depUpdate_ne _ _ _ _ hd]; exact hW d
        have hN1 : ∀ d,
            newTracked (depUpdate σ r (fun dd => { dd with n := dd.n ||| 2 ^ k }) d)
              (2 ^ k) = true ↔ d ∈ r :: S := by
          intro d
          by_cases hd : d = r
          · subst hd; rw [depUpdate_same]; simp [newTracked_setN]
          · rw [depUpdate_ne _ _ _ _ hd, hN d]
            simp only [List.mem_cons]
            tauto
        have hS1 : ∀ d,
            e ∈ (depUpdate σ r (fun dd => { dd with n := dd.n ||| 2 ^ k }) d).subs ↔
              (d ∈ edeps0 ∨ d ∈ r :: S) := by
          intro d
          by_cases hd : d = r
          · subst hd; rw [depUpdate_same]
            show e ∈ (σ d).subs ↔ _
            rw [hS d]
            simp only [List.mem_cons]
            tauto
          · rw [depUpdate_ne _ _ _ _ hd, hS d]
            simp only [List.mem_cons]
            tauto
        have hE1 : ∀ d, d ∈ ed ↔ (d ∈ edeps0 ∨ d ∈ r :: S) := by
          intro d
          rw [hE d]
          simp only [List.mem_cons]
          by_cases hd : d = r
          · subst hd; tauto
          · tauto
        have hrec := ih (r :: S) _ ed hW1 hN1 hS1 hE1 hnd
        exact ⟨hrec.1,
          fun d => (hrec.2.1 d).trans (by simp only [List.mem_cons]; tauto),
          fun d => (hrec.2.2.1 d).trans (by simp only [List.mem_cons]; tauto),
          fun d => (hrec.2.2.2.1 d).trans (by simp only [List.mem_cons]; tauto),
          hrec.2.2.2.2⟩
      · have hw0 : wasTracked (σ r) (2 ^ k) = false := by simpa using hw
        rw [trackEffects_fresh hk hn0 hw0 e ed]
        have hr0 : r ∉ edeps0 := fun hmem => by rw [← hW r] at hmem; simp [hw0] at hmem
        have hrS : r ∉ S := fun hmem => by rw [← hN r] at hmem; simp [hn0] at hmem
        have hW2 : ∀ d,
            wasTracked
              (depUpdate (depUpdate σ r (fun dd => { dd with n := dd.n ||| 2 ^ k })) r
                (fun dd => { dd with subs := dd.subs ++ [e] }) d) (2 ^ k) = true ↔
              d ∈ edeps0 := by
          intro d
          by_cases hd : d = r
          · subst hd
            rw [depUpdate_same, wasTracked_updSubs, depUpdate_same, wasTracked_updN]
            exact hW d
          · rw [depUpdate_ne _ _ _ _ hd, depUpdate_ne _ _ _ _ hd]
            exact hW d
        have hN2 : ∀ d,
            newTracked
              (depUpdate (depUpdate σ r (fun dd => { dd with n := dd.n ||| 2 ^ k })) r
                (fun dd => { dd with subs := dd.subs ++ [e] }) d) (2 ^ k) = true ↔
              d ∈ r :: S := by
          intro d
          by_cases hd : d = r
          · subst hd
            rw [depUpdate_same, newTracked_updSubs, depUpdate_same]
            simp [newTracked_setN]
          · rw [depUpdate_ne _ _ _ _ hd, depUpdate_ne _ _ _ _ hd, hN d]
            simp only [List.mem_cons]
            tauto
        have hS2 : ∀ d,
            e ∈ (depUpdate (depUpdate σ r (fun dd => { dd with n := dd.n ||| 2 ^ k })) r
                (fun dd => { dd with subs := dd.subs ++ [e] }) d).subs ↔
              (d ∈ edeps0 ∨ d ∈ r :: S) := by
          intro d
          by_cases hd : d = r
          · subst hd
            rw [depUpdate_same]
            simp
          · rw [depUpdate_ne _ _ _ _ hd, depUpdate_ne _ _ _ _ hd, hS d]
            simp only [List.mem_cons]
            tauto
        have hE2 : ∀ d, d ∈ ed ++ [r] ↔ (d ∈ edeps0 ∨ d ∈ r :: S) := by
          intro d
          rw [List.mem_append, hE d]
          simp only [List.mem_cons, List.mem_singleton]
          tauto
        have hnd2 : (ed ++ [r]).Nodup := by
          have hre : r ∉ ed := fun hmem => by
            rcases (hE r).mp hmem with h1 | h1
            · exact hr0 h1
            · exact hrS h1
          simp [List.nodup_append, hnd, hre]
        have hrec := ih (r :: S) _ (ed ++ [r]) hW2 hN2 hS2 hE2 hnd2
        exact ⟨hrec.1,
          fun d => (hrec.2.1 d).trans (by simp only [List.mem_cons]; tauto),
          fun d => (hrec.2.2.1 d).trans (by simp only [List.mem_cons]; tauto),
          fun d => (hrec.2.2.2.1 d).trans (by simp only [List.mem_cons]; tauto),
          hrec.2.2.2.2⟩

/-- The n test depends only on the n field. -/
theorem newTracked_eq_of_n {dd1 dd2 : DepData} (h : dd1.n = dd2.n) (b : Nat) :
    newTracked dd1 b = newTracked dd2 b := by
  simp [newTracked, h]

/-- trackEffects past depth 30 with the effect already subscribed does
nothing. -/
theorem trackEffects_deep_has {k : Nat} (hk : ¬ k ≤ 30) {σ : DepStore} {d : Loc} {e : Nat}
    (hs : e ∈ (σ d).subs) (b : Nat) (ed : List Loc) :
    trackEffects k b e σ ed d = (σ, ed) := by
  simp [trackEffects, hk, hs]

/-- trackEffects past depth 30 with the effect not yet subscribed adds it
to the dep and pushes the dep onto its list. -/
theorem trackEffects_deep_fresh {k : Nat} (hk : ¬ k ≤ 30) {σ : DepStore} {d : Loc} {e : Nat}
    (hs : e ∉ (σ d).subs) (b : Nat) (ed : List Loc) :
    trackEffects k b e σ ed d =
      (depUpdate σ d (fun dd => { dd with subs := dd.subs ++ [e] }), ed ++ [d]) := by
  simp [trackEffects, hk, hs]

/-- Invariant of the tracking phase past depth 30 (full-cleanup mode):
with the effect subscribed exactly on S and its dep list exactly S without
duplicates, processing reads extends S by them. -/
theorem runTracks_full (k : Nat) (hk : ¬ k ≤ 30) (e b : Nat) :
    ∀ (reads S : List Loc) (σ : DepStore) (ed : List Loc),
      (∀ d, e ∈ (σ d).subs ↔ d ∈ S) →
      (∀ d, d ∈ ed ↔ d ∈ S) →
      ed.Nodup →
      (∀ d, e ∈ ((runTracks k b e σ ed reads).1 d).subs ↔ (d ∈ S ∨ d ∈ reads)) ∧
      (∀ d, d ∈ (runTracks k b e σ ed reads).2 ↔ (d ∈ S ∨ d ∈ reads)) ∧
      (runTracks k b e σ ed reads).2.Nodup := by
  intro reads
  induction reads with
  | nil =>
    intro S σ ed hS hE hnd
    simp only [runTracks, List.foldl_nil]
    exact ⟨fun d => by rw [hS d]; simp, fun d => by rw [hE d]; simp, hnd⟩
  | cons r rest ih =>
    intro S σ ed hS hE hnd
    rw [runTracks_cons]
    by_cases hs : e ∈ (σ r).subs
    · rw [trackEffects_deep_has hk hs b ed]
      have hrS : r ∈ S := (hS r).mp hs
      have hS1 : ∀ d, e ∈ (σ d).subs ↔ d ∈ r :: S := by
        intro d
        rw [hS d]
        simp only [List.mem_cons]
        constructor
        · tauto
        · rintro (h | h)
          · subst h; exact hrS
          · exact h
      have hE1 : ∀ d, d ∈ ed ↔ d ∈ r :: S := by
        intro d
        rw [hE d]
        simp only [List.mem_cons]
        constructor
        · tauto
        · rintro (h | h)
          · subst h; exact hrS
          · exact h
      have hrec := ih (r :: S) σ ed hS1 hE1 hnd
      exact ⟨fun d => (hrec.1 d).trans (by simp only [List.mem_cons]; tauto),
        fun d => (hrec.2.1 d).trans (by simp only [List.mem_cons]; tauto),
        hrec.2.2⟩
    · rw [trackEffects_deep_fresh hk hs b ed]
      have hrS : r ∉ S := fun h => hs ((hS r).mpr h)
      have hS2 : ∀ d,
          e ∈ (depUpdate σ r (fun dd => { dd with subs := dd.subs ++ [e] }) d).subs ↔
            d ∈ r :: S := by
        intro d
        by_cases hd : d = r
        · subst hd
          rw [depUpdate_same]
          simp
        · rw [depUpdate_ne _ _ _ _ hd, hS d]
          simp only [List.mem_cons]
          tauto
      have hE2 : ∀ d, d ∈ ed ++ [r] ↔ d ∈ r :: S := by
        intro d
        rw [List.mem_append, hE d]
        simp only [List.mem_cons, List.mem_singleton]
        tauto
      have hnd2 : (ed ++ [r]).Nodup := by
        have hre : r ∉ ed := fun hmem => hrS ((hE r).mp hmem)
        simp [List.nodup_append, hnd, hre]
      have hrec := ih (r :: S) _ (ed ++ [r]) hS2 hE2 hnd2
      exact ⟨fun d => (hrec.1 d).trans (by simp only [List.mem_cons]; tauto),
        fun d => (hrec.2.1 d).trans (by simp only [List.mem_cons]; tauto),
        hrec.2.2⟩

set_option maxHeartbeats 1000000 in
/-- Effect of the finalize walk: starting from a store whose bits on the
walked list L encode membership in the previous dep list edeps0 (w bit)
and in this run's reads (n bit), the walk keeps exactly the elements of L
that were read this run or are new, removes the effect from the dropped
ones, preserves its membership on the kept ones, and leaves every
location outside L untouched. -/
theorem finalizeStep_fold (b e : Nat) (edeps0 reads : List Loc) :
    ∀ (L : List Loc) (σ : DepStore) (acc : List Loc),
      L.Nodup →
      (∀ d ∈ L, (wasTracked (σ d) b = true ↔ d ∈ edeps0) ∧
        (newTracked (σ d) b = true ↔ d ∈ reads)) →
      (∀ d, d ∈ (L.foldl (finalizeStep e b) (σ, acc)).2 ↔
        (d ∈ acc ∨ (d ∈ L ∧ (d ∉ edeps0 ∨ d ∈ reads)))) ∧
      (∀ d ∈ L, e ∈ ((L.foldl (finalizeStep e b) (σ, acc)).1 d).subs ↔
        (e ∈ (σ d).subs ∧ (d ∉ edeps0 ∨ d ∈ reads))) ∧
      (∀ d, d ∉ L → (L.foldl (finalizeStep e b) (σ, acc)).1 d = σ d) := by
  intro L
  induction L with
  | nil =>
    intro σ acc _ _
    refine ⟨fun d => by simp, fun d hd => absurd hd (by simp), fun d _ => rfl⟩
  | cons a L ih =>
    intro σ acc hnd hfacts
    have hfa := hfacts a (by simp)
    have hndL : L.Nodup := (List.nodup_cons.mp hnd).2
    have haL : a ∉ L := (List.nodup_cons.mp hnd).1
    rw [List.foldl_cons]
    by_cases hcond : wasTracked (σ a) b = true ∧ ¬ newTracked (σ a) b = true
    · have hkeepa : ¬ (a ∉ edeps0 ∨ a ∈ reads) := by
        push_neg
        exact ⟨hfa.1.mp hcond.1, fun hr => hcond.2 (hfa.2.mpr hr)⟩
      have hstep : finalizeStep e b (σ, acc) a =
          (depUpdate σ a (fun dd => { dd with subs := dd.subs.filter (fun x => x ≠ e) }),
            acc) := by
        simp only [finalizeStep]
        rw [if_pos hcond]
      rw [hstep]
      have hfacts2 : ∀ d ∈ L,
          (wasTracked
            (depUpdate σ a (fun dd => { dd with subs := dd.subs.filter (fun x => x ≠ e) }) d)
            b = true ↔ d ∈ edeps0) ∧
          (newTracked
            (depUpdate σ a (fun dd => { dd with subs := dd.subs.filter (fun x => x ≠ e) }) d)
            b = true ↔ d ∈ reads) := by
        intro d hd
        rw [depUpdate_ne _ _ _ _ (ne_of_mem_of_not_mem hd haL)]
        exact hfacts d (by simp [hd])
      have hrec := ih _ acc hndL hfacts2
      refine ⟨fun d => ?_, fun d hd => ?_, fun d hdn => ?_⟩
      · rw [hrec.1 d]
        simp only [List.mem_cons]
        by_cases hda : d = a
        · subst hda
          constructor
          · rintro (h | ⟨h1, h2⟩)
            · exact Or.inl h
            · exact Or.inr ⟨Or.inr h1, h2⟩
          · rintro (h | ⟨h1 | h1, h2⟩)
            · exact Or.inl h
            · exact absurd h2 hkeepa
            · exact Or.inr ⟨h1, h2⟩
        · tauto
      · rcases List.mem_cons.mp hd with hda | hdL
        · subst hda
          rw [hrec.2.2 d haL, depUpdate_same]
          constructor
          · intro hmem
            rcases List.mem_filter.mp hmem with ⟨-, hne⟩
            simp at hne
          · rintro ⟨-, h2⟩
            exact absurd h2 hkeepa
        · rw [hrec.2.1 d hdL, depUpdate_ne _ _ _ _ (ne_of_mem_of_not_mem hdL haL)]
      · have hda : d ≠ a := fun h => hdn (by simp [h])
        have hdL : d ∉ L := fun h => hdn (by simp [h])
        rw [hrec.2.2 d hdL, depUpdate_ne _ _ _ _ hda]
    · have hkeepa : a ∉ edeps0 ∨ a ∈ reads := by
        by_contra hcon
        push_neg at hcon
        exact hcond ⟨hfa.1.mpr hcon.1, fun hn => hcon.2 (hfa.2.mp hn)⟩
      have hstep : finalizeStep e b (σ, acc) a =
          (depUpdate σ a
            (fun dd => { dd with w := clearBit dd.w b, n := clearBit dd.n b }),
            acc ++ [a]) := by
        simp only [finalizeStep]
        rw [if_neg hcond]
      rw [hstep]
      have hfacts2 : ∀ d ∈ L,
          (wasTracked
            (depUpdate σ a
              (fun dd => { dd with w := clearBit dd.w b, n := clearBit dd.n b }) d)
            b = true ↔ d ∈ edeps0) ∧
          (newTracked
            (depUpdate σ a
              (fun dd => { dd with w := clearBit dd.w b, n := clearBit dd.n b }) d)
            b = true ↔ d ∈ reads) := by
        intro d hd
        rw [depUpdate_ne _ _ _ _ (ne_of_mem_of_not_mem hd haL)]
        exact hfacts d (by simp [hd])
      have hrec := ih _ (acc ++ [a]) hndL hfacts2
      refine ⟨fun d => ?_, fun d hd => ?_, fun d hdn => ?_⟩
      · rw [hrec.1 d]
        have hacc : d ∈ acc ++ [a] ↔ (d ∈ acc ∨ d = a) := by simp
        rw [hacc]
        simp only [List.mem_cons]
        by_cases hda : d = a
        · subst hda
          exact ⟨fun _ => Or.inr ⟨Or.inl rfl, hkeepa⟩, fun _ => Or.inl (Or.inr rfl)⟩
        · tauto
      · rcases List.mem_cons.mp hd with hda | hdL
        · subst hda
          rw [hrec.2.2 d haL, depUpdate_same]
          constructor
          · intro hmem
            exact ⟨hmem, hkeepa⟩
          · exact fun hmem => hmem.1
        · rw [hrec.2.1 d hdL, depUpdate_ne _ _ _ _ (ne_of_mem_of_not_mem hdL haL)]
      · have hda : d ≠ a := fun h => hdn (by simp [h])
        have hdL : d ∉ L := fun h => hdn (by simp [h])
        rw [hrec.2.2 d hdL, depUpdate_ne _ _ _ _ hda]

set_option maxHeartbeats 1000000 in
/-- C1 (dep-diff law): for an active effect whose bookkeeping is clean at
the current nesting level (the level's w and n bits are clear everywhere,
as they are between runs) and consistent (the effect subscribes to
exactly the deps on its duplicate-free dep list), after run completes —
whether the fn returned normally or threw, since the finally block always
performs the finalization — the effect's dep list holds exactly the
locations tracked during this run, every dep touched this run contains
the effect, and every dep touched only in a prior run no longer contains
it. Both the bit-marker path (depth at most 30) and the full-cleanup
fallback (beyond 30) satisfy the law. -/
theorem run_dep_diff (depth e : Nat) (σ : DepStore) (edeps reads : List Loc)
    (hclean : ∀ d, wasTracked (σ d) (2 ^ depth) = false ∧
      newTracked (σ d) (2 ^ depth) = false)
    (hbi : ∀ d, e ∈ (σ d).subs ↔ d ∈ edeps)
    (hnd : edeps.Nodup) :
    (∀ d, d ∈ (runDeps depth e σ edeps reads).2 ↔ d ∈ reads) ∧
    (∀ d, e ∈ ((runDeps depth e σ edeps reads).1 d).subs ↔ d ∈ reads) := by
  simp only [runDeps]
  by_cases hdep : depth ≤ 30
  · rw [if_pos hdep]
    have hW1 : ∀ d,
        wasTracked (initDepMarkers σ edeps (2 ^ depth) d) (2 ^ depth) = true ↔
          d ∈ edeps := by
      intro d
      rw [initDepMarkers_w]
      simp [(hclean d).1]
    have hN1 : ∀ d,
        newTracked (initDepMarkers σ edeps (2 ^ depth) d) (2 ^ depth) = true ↔
          d ∈ ([] : List Loc) := by
      intro d
      rw [newTracked_eq_of_n (initDepMarkers_n edeps σ (2 ^ depth) d)]
      simp [(hclean d).2]
    have hS1 : ∀ d, e ∈ (initDepMarkers σ edeps (2 ^ depth) d).subs ↔
        (d ∈ edeps ∨ d ∈ ([] : List Loc)) := by
      intro d
      rw [initDepMarkers_subs, hbi d]
      simp
    have hE1 : ∀ d, d ∈ edeps ↔ (d ∈ edeps ∨ d ∈ ([] : List Loc)) := by
      intro d
      simp
    have htr := runTracks_inv depth hdep e edeps reads []
      (initDepMarkers σ edeps (2 ^ depth)) edeps hW1 hN1 hS1 hE1 hnd
    rw [finalizeDepMarkers]
    have hfacts : ∀ d ∈ (runTracks depth (2 ^ depth) e
          (initDepMarkers σ edeps (2 ^ depth)) edeps reads).2,
        (wasTracked ((runTracks depth (2 ^ depth) e
          (initDepMarkers σ edeps (2 ^ depth)) edeps reads).1 d) (2 ^ depth) = true ↔
          d ∈ edeps) ∧
        (newTracked ((runTracks depth (2 ^ depth) e
          (initDepMarkers σ edeps (2 ^ depth)) edeps reads).1 d) (2 ^ depth) = true ↔
          d ∈ reads) :=
      fun d _ => ⟨htr.1 d, (htr.2.1 d).trans (by simp)⟩
    have hfin := finalizeStep_fold (2 ^ depth) e edeps reads
      (runTracks depth (2 ^ depth) e (initDepMarkers σ edeps (2 ^ depth)) edeps reads).2
      (runTracks depth (2 ^ depth) e (initDepMarkers σ edeps (2 ^ depth)) edeps reads).1
      [] htr.2.2.2.2 hfacts
    constructor
    · intro d
      rw [hfin.1 d, htr.2.2.2.1 d]
      simp only [List.not_mem_nil, false_or]
      tauto
    · intro d
      by_cases hd : d ∈ (runTracks depth (2 ^ depth) e
          (initDepMarkers σ edeps (2 ^ depth)) edeps reads).2
      · rw [hfin.2.1 d hd, htr.2.2.1 d]
        have hmem := (htr.2.2.2.1 d).mp hd
        simp only [List.not_mem_nil, false_or] at hmem ⊢
        tauto
      · rw [hfin.2.2 d hd, htr.2.2.1 d, ← htr.2.2.2.1 d]
        exact ⟨fun h => absurd h hd,
          fun hr => absurd ((htr.2.2.2.1 d).mpr (Or.inr (Or.inr hr))) hd⟩
  · rw [if_neg hdep]
    have hS0 : ∀ d, e ∈ ((cleanupEffect σ e edeps).1 d).subs ↔ d ∈ ([] : List Loc) := by
      intro d
      rw [cleanupEffect_subs, hbi d]
      constructor
      · rintro ⟨h1, h2⟩
        exact absurd h1 h2
      · intro h
        simp at h
    have hE0 : ∀ d, d ∈ (cleanupEffect σ e edeps).2 ↔ d ∈ ([] : List Loc) := fun d => Iff.rfl
    have hrec := runTracks_full depth hdep e (2 ^ depth) reads []
      (cleanupEffect σ e edeps).1 (cleanupEffect σ e edeps).2 hS0 hE0 List.nodup_nil
    exact ⟨fun d => (hrec.2.1 d).trans (by simp),
      fun d => (hrec.1 d).trans (by simp)⟩

/-- Dep store used by the C1 witness: every location fresh and empty. -/
def emptyDeps : DepStore := fun _ => ⟨[], 0, 0⟩

/-- Witness for C1 at concrete input: effect 5 with a previously empty dep
list runs at depth 1 and reads one location; afterwards its dep list is
exactly that location and it subscribes exactly there. -/
theorem run_dep_diff_witness :
    ((∀ d, wasTracked (emptyDeps d) (2 ^ 1) = false ∧
        newTracked (emptyDeps d) (2 ^ 1) = false) ∧
      (∀ d, 5 ∈ (emptyDeps d).subs ↔ d ∈ ([] : List Loc)) ∧
      ([] : List Loc).Nodup) ∧
    ((∀ d, d ∈ (runDeps 1 5 emptyDeps [] [(0, RKey.named "a")]).2 ↔
        d ∈ [(0, RKey.named "a")]) ∧
      (∀ d, 5 ∈ ((runDeps 1 5 emptyDeps [] [(0, RKey.named "a")]).1 d).subs ↔
        d ∈ [(0, RKey.named "a")])) :=
  ⟨⟨fun d => ⟨by simp [emptyDeps, wasTracked], by simp [emptyDeps, newTracked]⟩,
      fun d => by simp [emptyDeps], List.nodup_nil⟩,
    run_dep_diff 1 5 emptyDeps [] [(0, RKey.named "a")]
      (fun d => ⟨by simp [emptyDeps, wasTracked], by simp [emptyDeps, newTracked]⟩)
      (fun d => by simp [emptyDeps]) List.nodup_nil⟩

end VueReactivity
